import Mathlib

/-!
Verification of the memcached discovery client
(pkg/chunk/cache/memcached_client.go) and the configs data model
(pkg/configs/configs.go).

The Go code is shallowly embedded: the external DNS provider and the
SRV lookup are abstracted as an environment of functions, machine
side effects (gauge updates, selector installation, logging, loop
start) are recorded in an explicit event trace, and the Go map type is
embedded as an association list.
-/

/-- A record returned by net.LookupSRV: target host, port, and the
priority and weight fields (which the client ignores). -/
structure SRVRecord where
  target : String
  port : Nat
  priority : Nat
  weight : Nat
  deriving DecidableEq

/-- The resolution environment of one cycle: the Thanos DNS provider
(Resolve followed by Addresses, which never reports an error to this
caller) and net.LookupSRV (which can fail). -/
structure ResolveEnv where
  providerAddresses : List String → List String
  lookupSRV : String → String → Except String (List SRVRecord)

/-- The observable state of a memcachedClient: its configuration
fields, the server list installed in the selector by SetServers, and
the value of the cortex memcache client servers gauge. -/
structure memcachedClient where
  hostname : String
  service : String
  addresses : List String
  serverList : List String
  numServers : Nat
  deriving DecidableEq

/-- An observable side effect of the client. -/
inductive Event where
  | resolveStatic (addrs : List String)
  | resolveSRV (service hostname : String)
  | setGauge (n : Nat)
  | setServers (servers : List String)
  | logWarn (msg : String)
  | logError (msg : String)
  | startLoop
  deriving DecidableEq

/-- Formats one SRV record as in fmt.Sprintf with a host, a colon and
a decimal port. -/
def srvAddr (srv : SRVRecord) : String :=
  srv.target ++ ":" ++ toString srv.port

/-- Lexicographic order on character lists, comparing code points the
way Go compares the bytes of two strings (UTF-8 is order-preserving). -/
def charListLe : List Char → List Char → Bool
  | [], _ => true
  | _ :: _, [] => false
  | a :: as, b :: bs =>
      if a.toNat < b.toNat then true
      else if b.toNat < a.toNat then false
      else charListLe as bs

/-- The order on strings used by sort.Strings. -/
def strLe (a b : String) : Bool :=
  charListLe a.data b.data

/-- Embeds sort.Strings: lexicographically ascending order on the
string list. -/
def sortStrings (l : List String) : List String :=
  List.insertionSort (fun a b => strLe a b = true) l

/-- The resolution step of updateMemcacheServers: the static-address
branch (taken whenever the addresses field is non-empty) queries the
DNS provider; the other branch performs the SRV lookup and renders
each record as target colon port, ignoring priority and weight. -/
def resolveServers (env : ResolveEnv) (c : memcachedClient) :
    Except String (List String) :=
  if 0 < c.addresses.length then
    Except.ok (env.providerAddresses c.addresses)
  else
    match env.lookupSRV c.service c.hostname with
    | Except.error e => Except.error e
    | Except.ok addrs => Except.ok (addrs.map srvAddr)

/-- The trace event of the resolution step taken by
updateMemcacheServers on state c. -/
def resolveEvent (c : memcachedClient) : Event :=
  if 0 < c.addresses.length then Event.resolveStatic c.addresses
  else Event.resolveSRV c.service c.hostname

/-- Embeds updateMemcacheServers: resolve, and on success sort the
servers, set the gauge to their number, and install them with
SetServers; on failure return the error before any of those effects. -/
def updateMemcacheServers (env : ResolveEnv) (c : memcachedClient) :
    Except String memcachedClient × List Event :=
  match resolveServers env c with
  | Except.error e => (Except.error e, [resolveEvent c])
  | Except.ok servers =>
      let sorted := sortStrings servers
      (Except.ok { c with serverList := sorted, numServers := sorted.length },
       [resolveEvent c, Event.setGauge sorted.length, Event.setServers sorted])

/-- One tick of updateLoop: run updateMemcacheServers; a failure is
logged at warning level and the previous state is kept. -/
def updateLoopTick (env : ResolveEnv) (c : memcachedClient) :
    memcachedClient × List Event :=
  match updateMemcacheServers env c with
  | (Except.error e, tr) => (c, tr ++ [Event.logWarn e])
  | (Except.ok c1, tr) => (c1, tr)

/-- A signal delivered to updateLoop's select: a ticker tick carrying
that cycle's resolution environment, or the closed quit channel. -/
inductive LoopSignal where
  | tick (env : ResolveEnv)
  | quit

/-- Embeds updateLoop as a function of the sequence of signals its
select statement observes: ticks run one update cycle each, and the
first quit stops the ticker and returns, so every later signal is
never observed. -/
def updateLoop (c : memcachedClient) : List LoopSignal → memcachedClient × List Event
  | [] => (c, [])
  | LoopSignal.tick env :: rest =>
      let r := updateLoopTick env c
      let r2 := updateLoop r.1 rest
      (r2.1, r.2 ++ r2.2)
  | LoopSignal.quit :: _ => (c, [])

/-- Embeds Stop: close(quit) makes the quit signal available to the
loop after whatever ticks it still observes first, and wait.Wait()
blocks until the loop has returned, so Stop's result is the state and
trace of the fully exited loop. -/
def Stop (c : memcachedClient) (pending : List LoopSignal) :
    memcachedClient × List Event :=
  updateLoop c (pending ++ [LoopSignal.quit])

/-- The tail of NewMemcachedClient after the struct literal: one
synchronous updateMemcacheServers whose failure is logged at error
level without aborting construction, then the background loop is
started. -/
def constructAndStart (env : ResolveEnv) (c0 : memcachedClient) :
    memcachedClient × List Event :=
  match updateMemcacheServers env c0 with
  | (Except.error e, tr) => (c0, tr ++ [Event.logError e, Event.startLoop])
  | (Except.ok c1, tr) => (c1, tr ++ [Event.startLoop])

/-- The configuration fields of MemcachedClientConfig that determine
discovery. -/
structure MemcachedClientConfig where
  Host : String
  Service : String
  Addresses : String
  deriving DecidableEq

/-- Splits a character list at every separator, as strings.Split
does: the empty input yields one empty piece, and n separators yield
n plus one pieces. -/
def splitChars (sep : Char) : List Char → List (List Char)
  | [] => [[]]
  | ch :: rest =>
      match splitChars sep rest with
      | [] => [[]]
      | piece :: pieces =>
          if ch = sep then [] :: piece :: pieces
          else (ch :: piece) :: pieces

/-- Embeds strings.Split with a comma separator; in particular the
empty string splits into a one-element list holding the empty string. -/
def goSplitComma (s : String) : List String :=
  (splitChars ',' s.data).map (fun cs => String.mk cs)

/-- The struct literal in NewMemcachedClient: the addresses field is
strings.Split of the configured Addresses on commas (which yields a
one-element list holding the empty string when Addresses is empty),
and the selector and gauge start empty. -/
def initialClient (cfg : MemcachedClientConfig) : memcachedClient :=
  { hostname := cfg.Host
    service := cfg.Service
    addresses := goSplitComma cfg.Addresses
    serverList := []
    numServers := 0 }

/-- Embeds NewMemcachedClient: build the initial state, then perform
the initial update and start the loop. -/
def NewMemcachedClient (env : ResolveEnv) (cfg : MemcachedClientConfig) :
    memcachedClient × List Event :=
  constructAndStart env (initialClient cfg)

/-- True exactly on the two resolution events. -/
def isResolveEvent : Event → Bool
  | Event.resolveStatic _ => true
  | Event.resolveSRV _ _ => true
  | _ => false

/-- Extracts the value of a gauge-update event. -/
def gaugeOfEvent : Event → Option Nat
  | Event.setGauge n => some n
  | _ => none

/-- The SRV-lookup events of a trace. -/
def srvLookups (tr : List Event) : List Event :=
  tr.filter (fun e =>
    match e with
    | Event.resolveSRV _ _ => true
    | _ => false)

/-- The number of resolution events in a trace. -/
def resolveCount (tr : List Event) : Nat :=
  tr.countP isResolveEvent

theorem charListLe_cons_elim {a b : Char} {as bs : List Char}
    (h : charListLe (a :: as) (b :: bs) = true) :
    a.toNat < b.toNat ∨ (a.toNat = b.toNat ∧ charListLe as bs = true) := by
  by_cases h1 : a.toNat < b.toNat
  · exact Or.inl h1
  · by_cases h2 : b.toNat < a.toNat
    · simp [charListLe, h1, h2] at h
    · refine Or.inr ⟨by omega, ?_⟩
      simpa [charListLe, h1, h2] using h

theorem charListLe_cons_of_lt {a b : Char} (h : a.toNat < b.toNat)
    (as bs : List Char) : charListLe (a :: as) (b :: bs) = true := by
  simp [charListLe, h]

theorem charListLe_cons_of_eq {a b : Char} (h : a.toNat = b.toNat)
    {as bs : List Char} (ht : charListLe as bs = true) :
    charListLe (a :: as) (b :: bs) = true := by
  simp [charListLe, h, ht]

theorem charListLe_total : ∀ a b : List Char,
    charListLe a b = true ∨ charListLe b a = true
  | [], _ => Or.inl rfl
  | _ :: _, [] => Or.inr rfl
  | a :: as, b :: bs => by
      rcases Nat.lt_trichotomy a.toNat b.toNat with h | h | h
      · exact Or.inl (charListLe_cons_of_lt h as bs)
      · rcases charListLe_total as bs with ht | ht
        · exact Or.inl (charListLe_cons_of_eq h ht)
        · exact Or.inr (charListLe_cons_of_eq h.symm ht)
      · exact Or.inr (charListLe_cons_of_lt h bs as)

theorem charListLe_trans : ∀ a b c : List Char,
    charListLe a b = true → charListLe b c = true → charListLe a c = true
  | [], _, _, _, _ => rfl
  | _ :: _, [], _, h, _ => by simp [charListLe] at h
  | _ :: _, _ :: _, [], _, h => by simp [charListLe] at h
  | a :: as, b :: bs, c :: cs, h1, h2 => by
      rcases charListLe_cons_elim h1 with hl | ⟨he, ht⟩ <;>
        rcases charListLe_cons_elim h2 with hl2 | ⟨he2, ht2⟩
      · exact charListLe_cons_of_lt (by omega) as cs
      · exact charListLe_cons_of_lt (by omega) as cs
      · exact charListLe_cons_of_lt (by omega) as cs
      · exact charListLe_cons_of_eq (by omega)
          (charListLe_trans as bs cs ht ht2)

theorem charListLe_antisymm : ∀ a b : List Char,
    charListLe a b = true → charListLe b a = true → a = b
  | [], [], _, _ => rfl
  | [], _ :: _, _, h => by simp [charListLe] at h
  | _ :: _, [], h, _ => by simp [charListLe] at h
  | a :: as, b :: bs, h1, h2 => by
      rcases charListLe_cons_elim h1 with hl | ⟨he, ht⟩ <;>
        rcases charListLe_cons_elim h2 with hl2 | ⟨he2, ht2⟩
      · omega
      · omega
      · omega
      · have hab : a = b :=
          Char.eq_of_val_eq (UInt32.eq_of_toBitVec_eq (BitVec.eq_of_toNat_eq he))
        rw [hab, charListLe_antisymm as bs ht ht2]

instance : IsTotal String (fun a b => strLe a b = true) :=
  ⟨fun a b => charListLe_total a.data b.data⟩

instance : IsTrans String (fun a b => strLe a b = true) :=
  ⟨fun a b c => charListLe_trans a.data b.data c.data⟩

instance : IsAntisymm String (fun a b => strLe a b = true) := by
  refine ⟨fun a b h1 h2 => ?_⟩
  cases a
  cases b
  have := charListLe_antisymm _ _ h1 h2
  simp_all

theorem sortStrings_sorted (l : List String) :
    List.Sorted (fun a b => strLe a b = true) (sortStrings l) :=
  List.sorted_insertionSort _ l

theorem sortStrings_perm (l : List String) : List.Perm (sortStrings l) l :=
  List.perm_insertionSort _ l

theorem sortStrings_eq_of_perm {l1 l2 : List String} (h : List.Perm l1 l2) :
    sortStrings l1 = sortStrings l2 :=
  List.eq_of_perm_of_sorted
    ((sortStrings_perm l1).trans (h.trans (sortStrings_perm l2).symm))
    (sortStrings_sorted l1) (sortStrings_sorted l2)

theorem sortStrings_length (l : List String) :
    (sortStrings l).length = l.length :=
  (sortStrings_perm l).length_eq

theorem isResolveEvent_resolveEvent (c : memcachedClient) :
    isResolveEvent (resolveEvent c) = true := by
  rw [resolveEvent]
  split <;> rfl

theorem gaugeOfEvent_resolveEvent (c : memcachedClient) :
    gaugeOfEvent (resolveEvent c) = none := by
  rw [resolveEvent]
  split <;> rfl

theorem isResolveEvent_setGauge (n : Nat) :
    isResolveEvent (Event.setGauge n) = false := rfl

theorem isResolveEvent_setServers (l : List String) :
    isResolveEvent (Event.setServers l) = false := rfl

theorem update_trace_one_resolve (env : ResolveEnv) (c : memcachedClient) :
    resolveCount (updateMemcacheServers env c).2 = 1 := by
  cases hr : resolveServers env c <;>
    simp [updateMemcacheServers, hr, resolveCount, List.countP_cons,
      isResolveEvent_resolveEvent, isResolveEvent_setGauge,
      isResolveEvent_setServers]

theorem isResolveEvent_logError (m : String) :
    isResolveEvent (Event.logError m) = false := rfl

theorem isResolveEvent_startLoop : isResolveEvent Event.startLoop = false := rfl

theorem gaugeOfEvent_setGauge (n : Nat) :
    gaugeOfEvent (Event.setGauge n) = some n := rfl

theorem gaugeOfEvent_setServers (l : List String) :
    gaugeOfEvent (Event.setServers l) = none := rfl

theorem resolveServers_error_elim {env : ResolveEnv} {c : memcachedClient}
    {e : String} (h : resolveServers env c = Except.error e) :
    c.addresses.length = 0 ∧
    env.lookupSRV c.service c.hostname = Except.error e ∧
    resolveEvent c = Event.resolveSRV c.service c.hostname := by
  by_cases hl : 0 < c.addresses.length
  · rw [resolveServers, if_pos hl] at h
    simp at h
  · refine ⟨by omega, ?_, by rw [resolveEvent, if_neg hl]⟩
    rw [resolveServers, if_neg hl] at h
    cases hsrv : env.lookupSRV c.service c.hostname <;> simp_all

theorem updateMemcacheServers_error_elim {env : ResolveEnv}
    {c : memcachedClient} {e : String} {tr : List Event}
    (h : updateMemcacheServers env c = (Except.error e, tr)) :
    resolveServers env c = Except.error e ∧ tr = [resolveEvent c] := by
  cases hr : resolveServers env c <;> simp_all [updateMemcacheServers, hr]

/-- C3: on a discovery tick whose resolution fails, the failure comes
from the SRV lookup and its trace holds only the lookup event (so the
gauge and the installed servers are untouched), the tick logs the
error at warning level and returns the previous state unchanged, and
the loop keeps processing the remaining signals with the failure never
escaping the tick. -/
theorem tick_failure_keeps_state (env : ResolveEnv) (c : memcachedClient)
    (e : String) (tr : List Event) (sigs : List LoopSignal)
    (h : updateMemcacheServers env c = (Except.error e, tr)) :
    tr = [Event.resolveSRV c.service c.hostname] ∧
    updateLoopTick env c = (c, tr ++ [Event.logWarn e]) ∧
    (updateLoop c (LoopSignal.tick env :: sigs)).1 = (updateLoop c sigs).1 ∧
    (updateLoop c (LoopSignal.tick env :: sigs)).2 =
      tr ++ Event.logWarn e :: (updateLoop c sigs).2 := by
  obtain ⟨hres, htr⟩ := updateMemcacheServers_error_elim h
  obtain ⟨hlen, hsrv, hev⟩ := resolveServers_error_elim hres
  refine ⟨by rw [htr, hev], by simp [updateLoopTick, h], ?_, ?_⟩
  · simp [updateLoop, updateLoopTick, h]
  · simp [updateLoop, updateLoopTick, h]

/-- The environment of a cycle whose SRV lookup fails. -/
def envFail : ResolveEnv :=
  { providerAddresses := fun l => l
    lookupSRV := fun _ _ => Except.error ("lookup failed") }

/-- A client configured for SRV discovery (no static addresses) that
already holds one installed server. -/
def clientSRV : memcachedClient :=
  { hostname := "example.com"
    service := "memcached"
    addresses := []
    serverList := ["old:1"]
    numServers := 1 }

/-- Witness for C3 at a failing SRV lookup against a client holding a
previously installed server. -/
theorem tick_failure_keeps_state_witness :
    [Event.resolveSRV "memcached" "example.com"] =
      [Event.resolveSRV clientSRV.service clientSRV.hostname] ∧
    updateLoopTick envFail clientSRV =
      (clientSRV,
        [Event.resolveSRV "memcached" "example.com"] ++
          [Event.logWarn "lookup failed"]) ∧
    (updateLoop clientSRV (LoopSignal.tick envFail :: [])).1 =
      (updateLoop clientSRV []).1 ∧
    (updateLoop clientSRV (LoopSignal.tick envFail :: [])).2 =
      [Event.resolveSRV "memcached" "example.com"] ++
        Event.logWarn "lookup failed" :: (updateLoop clientSRV []).2 :=
  tick_failure_keeps_state envFail clientSRV ("lookup failed")
    ([Event.resolveSRV "memcached" "example.com"]) [] rfl

/-- C4: once the loop's select has observed the closed quit channel it
returns, and Stop's wait blocks until then, so the state and trace
after Stop returns are those of the loop at the quit signal: signals
arriving later are never observed and can install no further server
list and no further gauge value. -/
theorem stop_no_further_setservers (c : memcachedClient)
    (pre post : List LoopSignal) :
    updateLoop c (pre ++ LoopSignal.quit :: post) = Stop c pre := by
  induction pre generalizing c with
  | nil => rfl
  | cons sig rest ih =>
      cases sig with
      | tick env => simp [updateLoop, Stop, ih]
      | quit => rfl

/-- C5: the constructor tail performs exactly one resolution before
the loop start event, which is always last; a failed initial
resolution leaves the initial state as the client's state and logs the
error at error level, and a successful one installs the resolved
state; in both cases the background loop is started. -/
theorem constructAndStart_spec (env : ResolveEnv) (c0 : memcachedClient) :
    resolveCount (constructAndStart env c0).2 = 1 ∧
    (constructAndStart env c0).2.getLast? = some Event.startLoop ∧
    (∀ e tr, updateMemcacheServers env c0 = (Except.error e, tr) →
      (constructAndStart env c0).1 = c0 ∧
      Event.logError e ∈ (constructAndStart env c0).2) ∧
    ∀ c1 tr, updateMemcacheServers env c0 = (Except.ok c1, tr) →
      (constructAndStart env c0).1 = c1 := by
  have h1 := update_trace_one_resolve env c0
  cases hu : updateMemcacheServers env c0 with
  | mk res tr =>
    rw [hu] at h1
    cases res with
    | error e =>
        refine ⟨?_, ?_, ?_, ?_⟩
        · simpa [constructAndStart, hu, resolveCount, List.countP_append,
            List.countP_cons, isResolveEvent_logError,
            isResolveEvent_startLoop] using h1
        · simp [constructAndStart, hu]
        · intro e2 tr2 h2
          injection h2 with h3 h4
          injection h3 with h5
          subst h5
          simp [constructAndStart, hu]
        · intro c1 tr2 h2
          simp at h2
    | ok c1 =>
        refine ⟨?_, ?_, ?_, ?_⟩
        · simpa [constructAndStart, hu, resolveCount, List.countP_append,
            List.countP_cons, isResolveEvent_startLoop] using h1
        · simp [constructAndStart, hu]
        · intro e2 tr2 h2
          simp at h2
        · intro c2 tr2 h2
          injection h2 with h3 h4
          injection h3 with h5
          subst h5
          simp [constructAndStart, hu]

/-- Witness for C5's error branch: a client state configured for SRV
discovery whose initial resolution fails still yields a client (the
initial state) and an error-level log. -/
theorem constructAndStart_spec_witness :
    (constructAndStart envFail clientSRV).1 = clientSRV ∧
    Event.logError "lookup failed" ∈ (constructAndStart envFail clientSRV).2 :=
  (constructAndStart_spec envFail clientSRV).2.2.1 ("lookup failed")
    ([Event.resolveSRV "memcached" "example.com"]) rfl

/-- C2: a successful resolution installs exactly the sorted resolved
addresses (and sets the gauge to their number); the sorted list is
sorted in the byte order of sort.Strings and is the same for every
ordering in which the resolver could have returned the addresses. -/
theorem updateMemcacheServers_installs_sorted (env : ResolveEnv)
    (c : memcachedClient) (s : List String)
    (h : resolveServers env c = Except.ok s) :
    (updateMemcacheServers env c).1 =
      Except.ok { c with serverList := sortStrings s,
                         numServers := (sortStrings s).length } ∧
    List.Sorted (fun a b => strLe a b = true) (sortStrings s) ∧
    ∀ s2 : List String, List.Perm s s2 → sortStrings s2 = sortStrings s := by
  refine ⟨by simp [updateMemcacheServers, h], sortStrings_sorted s, ?_⟩
  exact fun s2 hp => sortStrings_eq_of_perm hp.symm

/-- The environment whose DNS provider returns the configured static
addresses as given. -/
def envStatic : ResolveEnv :=
  { providerAddresses := fun l => l
    lookupSRV := fun _ _ => Except.error ("srv unused") }

/-- The configuration of the end-to-end static example. -/
def cfgStatic : MemcachedClientConfig :=
  { Host := "", Service := "memcached", Addresses := "b:1,a:1,c:1" }

/-- Witness for C2: with static addresses b, a, c (in that order) the
installed list is the sorted one, and it evaluates to a, b, c. -/
theorem updateMemcacheServers_installs_sorted_witness :
    resolveServers envStatic (initialClient cfgStatic) =
      Except.ok ["b:1", "a:1", "c:1"] ∧
    ((updateMemcacheServers envStatic (initialClient cfgStatic)).1 =
      Except.ok { initialClient cfgStatic with
                    serverList := sortStrings ["b:1", "a:1", "c:1"],
                    numServers := (sortStrings ["b:1", "a:1", "c:1"]).length } ∧
      List.Sorted (fun a b => strLe a b = true)
        (sortStrings ["b:1", "a:1", "c:1"]) ∧
      ∀ s2 : List String, List.Perm ["b:1", "a:1", "c:1"] s2 →
        sortStrings s2 = sortStrings ["b:1", "a:1", "c:1"]) ∧
    sortStrings ["b:1", "a:1", "c:1"] = ["a:1", "b:1", "c:1"] :=
  ⟨rfl,
   updateMemcacheServers_installs_sorted envStatic (initialClient cfgStatic)
     (["b:1", "a:1", "c:1"]) rfl,
   rfl⟩

/-- C7: the gauge updates of one cycle are exactly one update holding
the number of resolved addresses when resolution succeeds (zero when
the resolver returns no addresses, which is a success), and none when
it fails. -/
theorem update_gauge_on_success (env : ResolveEnv) (c : memcachedClient) :
    (updateMemcacheServers env c).2.filterMap gaugeOfEvent =
      (match resolveServers env c with
       | Except.ok s => [s.length]
       | Except.error _ => []) := by
  cases hr : resolveServers env c with
  | error e =>
      simp [updateMemcacheServers, hr, gaugeOfEvent_resolveEvent]
  | ok s =>
      simp [updateMemcacheServers, hr, gaugeOfEvent_resolveEvent,
        gaugeOfEvent_setGauge, gaugeOfEvent_setServers, sortStrings_length]

/-- Modelled from the spec: the 64-bit key-state step of the
jump-consistent-hash used by the Consistent selector
(MemcachedJumpHashSelector, whose source file is not in this tree),
with overflow taken modulo two to the sixty-four. -/
def nextKey (key : Nat) : Nat :=
  (key * 2862933555777941757 + 1) % (2 ^ 64)

/-- Modelled from the spec: the next candidate bucket after an
accepted bucket b, in integer arithmetic: the previous bucket plus
one, scaled by two to the thirty-one over the upper bits of the key
state plus one; it always exceeds b. -/
def nextJ (key b : Nat) : Nat :=
  ((b + 1) * 2 ^ 31) / (key / 2 ^ 33 + 1)

/-- Modelled from the spec: the jump loop; from an accepted bucket it
advances the key state and accepts the next candidate while the
candidate stays below the bucket count. -/
def jumpLoop : Nat → Nat → Nat → Nat → Nat
  | 0, _, b, _ => b
  | fuel + 1, key, b, n =>
      if nextJ (nextKey key) b < n then
        jumpLoop fuel (nextKey key) (nextJ (nextKey key) b) n
      else b

/-- Modelled from the spec: the jump-consistent-hash bucket of a
64-bit key hash among n servers; meaningful for positive n, where the
loop starts from bucket zero and n rounds always suffice. -/
def jumpHash (key n : Nat) : Nat :=
  jumpLoop n key 0 n

theorem nextKey_lt (key : Nat) : nextKey key < 2 ^ 64 :=
  Nat.mod_lt _ (by norm_num)

theorem nextJ_lower {key : Nat} (hk : key < 2 ^ 64) (b : Nat) :
    b + 1 ≤ nextJ key b := by
  have hd : key / 2 ^ 33 + 1 ≤ 2 ^ 31 := by
    have h1 : key < 2 ^ 33 * 2 ^ 31 := by
      calc key < 2 ^ 64 := hk
        _ = 2 ^ 33 * 2 ^ 31 := by norm_num
    have h2 : key / 2 ^ 33 < 2 ^ 31 := Nat.div_lt_of_lt_mul h1
    omega
  rw [nextJ, Nat.le_div_iff_mul_le (by omega)]
  exact Nat.mul_le_mul_left _ hd

theorem jumpLoop_succ_pos {key b n : Nat} (fuel : Nat)
    (h : nextJ (nextKey key) b < n) :
    jumpLoop (fuel + 1) key b n =
      jumpLoop fuel (nextKey key) (nextJ (nextKey key) b) n := by
  show (if nextJ (nextKey key) b < n then
      jumpLoop fuel (nextKey key) (nextJ (nextKey key) b) n else b) = _
  rw [if_pos h]

theorem jumpLoop_succ_neg {key b n : Nat} (fuel : Nat)
    (h : ¬ nextJ (nextKey key) b < n) :
    jumpLoop (fuel + 1) key b n = b := by
  show (if nextJ (nextKey key) b < n then
      jumpLoop fuel (nextKey key) (nextJ (nextKey key) b) n else b) = _
  rw [if_neg h]

theorem jumpLoop_lt : ∀ fuel key b n : Nat, b < n → jumpLoop fuel key b n < n
  | 0, _, _, _, h => h
  | fuel + 1, key, b, n, h => by
      by_cases hj : nextJ (nextKey key) b < n
      · rw [jumpLoop_succ_pos fuel hj]
        exact jumpLoop_lt fuel (nextKey key) (nextJ (nextKey key) b) n hj
      · rw [jumpLoop_succ_neg fuel hj]
        exact h

theorem jumpLoop_at_top : ∀ fuel key n : Nat, jumpLoop fuel key n (n + 1) = n
  | 0, _, _ => rfl
  | fuel + 1, key, n => by
      have hj := nextJ_lower (nextKey_lt key) n
      rw [jumpLoop_succ_neg fuel (by omega)]

theorem jumpLoop_fuel_succ : ∀ fuel key b n : Nat, b < n → n ≤ fuel + b + 1 →
    jumpLoop (fuel + 1) key b n = jumpLoop fuel key b n
  | 0, key, b, n, hb, hf => by
      have hj := nextJ_lower (nextKey_lt key) b
      rw [jumpLoop_succ_neg 0 (by omega)]
      rfl
  | fuel + 1, key, b, n, hb, hf => by
      by_cases hj : nextJ (nextKey key) b < n
      · have hlow := nextJ_lower (nextKey_lt key) b
        rw [jumpLoop_succ_pos (fuel + 1) hj, jumpLoop_succ_pos fuel hj]
        exact jumpLoop_fuel_succ fuel (nextKey key) (nextJ (nextKey key) b) n
          hj (by omega)
      · rw [jumpLoop_succ_neg (fuel + 1) hj, jumpLoop_succ_neg fuel hj]

theorem jumpLoop_grow : ∀ fuel key b n : Nat, b < n → n ≤ fuel + b →
    jumpLoop fuel key b (n + 1) = jumpLoop fuel key b n ∨
    jumpLoop fuel key b (n + 1) = n
  | 0, _, b, n, hb, hf => absurd hb (by omega)
  | fuel + 1, key, b, n, hb, hf => by
      have hlow := nextJ_lower (nextKey_lt key) b
      rcases Nat.lt_trichotomy (nextJ (nextKey key) b) n with hj | hj | hj
      · rw [jumpLoop_succ_pos fuel (show nextJ (nextKey key) b < n + 1 by omega),
          jumpLoop_succ_pos fuel hj]
        exact jumpLoop_grow fuel (nextKey key) (nextJ (nextKey key) b) n
          hj (by omega)
      · rw [jumpLoop_succ_pos fuel (show nextJ (nextKey key) b < n + 1 by omega),
          jumpLoop_succ_neg fuel (by omega)]
        right
        rw [hj]
        exact jumpLoop_at_top fuel (nextKey key) n
      · rw [jumpLoop_succ_neg fuel (show ¬ nextJ (nextKey key) b < n + 1 by omega),
          jumpLoop_succ_neg fuel (by omega)]
        exact Or.inl rfl

/-- C6 (modelled from the spec): the jump-consistent-hash bucket
function is a pure function of the pair of key and server count, its
bucket lies in the interval from zero up to the server count, and
growing the count by one either keeps a key's bucket or moves it to
the new top bucket: no key ever moves between two buckets that both
existed before. -/
theorem jumpHash_range_and_stable (key n : Nat) (h : 0 < n) :
    jumpHash key n < n ∧
    (jumpHash key (n + 1) = jumpHash key n ∨ jumpHash key (n + 1) = n) := by
  refine ⟨jumpLoop_lt n key 0 n h, ?_⟩
  have hf : jumpLoop (n + 1) key 0 n = jumpLoop n key 0 n :=
    jumpLoop_fuel_succ n key 0 n h (by omega)
  rcases jumpLoop_grow (n + 1) key 0 n h (by omega) with hg | hg
  · exact Or.inl (hg.trans hf)
  · exact Or.inr hg

/-- Witness for C6 at a concrete key and a three-server count. -/
theorem jumpHash_range_and_stable_witness :
    0 < 3 ∧ (jumpHash 123456789 3 < 3 ∧
      (jumpHash 123456789 4 = jumpHash 123456789 3 ∨
        jumpHash 123456789 4 = 3)) :=
  ⟨by decide, jumpHash_range_and_stable 123456789 3 (by decide)⟩

/-- The environment of the misconfiguration example for C1: the SRV
lookup would succeed with one record, and the DNS provider (queried
with the degenerate address list) yields nothing. -/
def envC1 : ResolveEnv :=
  { providerAddresses := fun _ => []
    lookupSRV := fun _ _ =>
      Except.ok [{ target := "memcached-1.example", port := 11211,
                   priority := 10, weight := 5 }] }

/-- A configuration with an SRV hostname and service but no static
address list. -/
def cfgC1 : MemcachedClientConfig :=
  { Host := "example.com", Service := "memcached", Addresses := "" }

/-- C1 (counterexample to the claim, exhibiting the code bug): with no
static address list configured, splitting the empty Addresses string
leaves a one-element addresses field, so construction takes the
static-provider branch, never performs the SRV lookup that would have
returned a server, and installs an empty server list. -/
theorem newMemcachedClient_empty_addresses_skips_srv :
    (initialClient cfgC1).addresses = [""] ∧
    envC1.lookupSRV (initialClient cfgC1).service (initialClient cfgC1).hostname =
      Except.ok [{ target := "memcached-1.example", port := 11211,
                   priority := 10, weight := 5 }] ∧
    (NewMemcachedClient envC1 cfgC1).1.serverList = [] ∧
    srvLookups (NewMemcachedClient envC1 cfgC1).2 = [] ∧
    Event.resolveStatic [""] ∈ (NewMemcachedClient envC1 cfgC1).2 := by
  refine ⟨rfl, rfl, rfl, rfl, ?_⟩
  decide

/-!
Embedding of pkg/configs/configs.go. A Go map from strings to strings
is an association list whose well-formedness (no duplicate keys) is
the Go map invariant; the nil-ness of the RulesFiles map field is the
none case of an Option.
-/

/-- The rules files of one organization, mapping a filename to the
file's content. -/
abbrev RulesConfig := List (String × String)

/-- Go map indexing: the value stored at a key. -/
def mapLookup (k : String) : List (String × String) → Option String
  | [] => none
  | kv :: rest => if kv.1 = k then some kv.2 else mapLookup k rest

/-- The keys of an embedded map. -/
def mapKeys (m : List (String × String)) : List String :=
  m.map Prod.fst

/-- The Go map invariant: every key occurs at most once. -/
def mapWF (m : List (String × String)) : Prop :=
  (mapKeys m).Nodup

instance (m : List (String × String)) : Decidable (mapWF m) := by
  rw [mapWF]
  infer_instance

/-- Embeds RulesConfig.Equal: differing sizes compare unequal, and
otherwise every filename of the receiver must map to the identical
content in the argument. -/
def RulesConfig.Equal (c o : RulesConfig) : Bool :=
  if o.length ≠ c.length then false
  else c.all fun kv =>
    match mapLookup kv.1 o with
    | some v2 => kv.2 == v2
    | none => false

theorem mapLookup_mem {k v : String} (m : List (String × String))
    (h : mapLookup k m = some v) : (k, v) ∈ m := by
  induction m with
  | nil => simp [mapLookup] at h
  | cons kv rest ih =>
      obtain ⟨a, b⟩ := kv
      rw [mapLookup] at h
      by_cases he : a = k
      · rw [if_pos he] at h
        injection h with h2
        subst he
        subst h2
        exact List.mem_cons_self _ _
      · rw [if_neg he] at h
        exact List.mem_cons_of_mem _ (ih h)

theorem mem_mapLookup {k v : String} (m : List (String × String))
    (hwf : mapWF m) (h : (k, v) ∈ m) : mapLookup k m = some v := by
  induction m with
  | nil => simp at h
  | cons kv rest ih =>
      obtain ⟨a, b⟩ := kv
      rw [mapWF, mapKeys, List.map_cons, List.nodup_cons] at hwf
      rcases List.mem_cons.mp h with he | hm
      · injection he with h1 h2
        subst h1
        subst h2
        rw [mapLookup, if_pos rfl]
      · have hk : ¬ a = k := by
          intro hak
          subst hak
          exact hwf.1 (List.mem_map.mpr ⟨(a, v), hm, rfl⟩)
        rw [mapLookup, if_neg hk]
        exact ih hwf.2 hm

theorem mapLookup_none {k : String} (m : List (String × String)) :
    mapLookup k m = none ↔ k ∉ mapKeys m := by
  induction m with
  | nil => simp [mapLookup, mapKeys]
  | cons kv rest ih =>
      obtain ⟨a, b⟩ := kv
      by_cases he : a = k
      · subst he
        simp [mapLookup, mapKeys]
      · rw [mapLookup, if_neg he, ih]
        have hne : k ≠ a := fun hk => he hk.symm
        simp [mapKeys, hne]

theorem rcEqual_true_elim {c o : RulesConfig}
    (h : RulesConfig.Equal c o = true) :
    o.length = c.length ∧ ∀ kv ∈ c, mapLookup kv.1 o = some kv.2 := by
  rw [RulesConfig.Equal] at h
  by_cases hl : o.length ≠ c.length
  · rw [if_pos hl] at h
    exact absurd h (by simp)
  · rw [if_neg hl] at h
    refine ⟨by omega, ?_⟩
    intro kv hkv
    have hall := List.all_eq_true.mp h kv hkv
    cases hlo : mapLookup kv.1 o with
    | none => rw [hlo] at hall; simp at hall
    | some v2 =>
        rw [hlo] at hall
        simp only [beq_iff_eq] at hall
        rw [hall]

theorem rcEqual_intro {c o : RulesConfig} (hl : o.length = c.length)
    (h : ∀ kv ∈ c, mapLookup kv.1 o = some kv.2) :
    RulesConfig.Equal c o = true := by
  rw [RulesConfig.Equal, if_neg (by omega)]
  refine List.all_eq_true.mpr ?_
  intro kv hkv
  rw [h kv hkv]
  simp

theorem rcEqual_iff (c o : RulesConfig) (hc : mapWF c) (ho : mapWF o) :
    RulesConfig.Equal c o = true ↔ ∀ k, mapLookup k c = mapLookup k o := by
  constructor
  · intro h k
    obtain ⟨hl, hall⟩ := rcEqual_true_elim h
    have hsub : mapKeys c ⊆ mapKeys o := by
      intro k2 hk2
      obtain ⟨kv, hkv, hfst⟩ := List.mem_map.mp hk2
      subst hfst
      exact List.mem_map_of_mem Prod.fst (mapLookup_mem o (hall kv hkv))
    have hperm : (mapKeys c).Perm (mapKeys o) :=
      (hc.subperm hsub).perm_of_length_le (by simp [mapKeys, hl])
    cases hkc : mapLookup k c with
    | none =>
        have h1 : k ∉ mapKeys c := (mapLookup_none c).mp hkc
        have h2 : k ∉ mapKeys o := fun hko => h1 (hperm.mem_iff.mpr hko)
        exact ((mapLookup_none o).mpr h2).symm
    | some v =>
        exact (hall (k, v) (mapLookup_mem c hkc)).symm
  · intro h
    have hkeys : ∀ k, k ∈ mapKeys c ↔ k ∈ mapKeys o := by
      intro k
      constructor
      · intro hk
        by_contra hko
        have h1 : mapLookup k c = none := by
          rw [h k]
          exact (mapLookup_none o).mpr hko
        exact ((mapLookup_none c).mp h1) hk
      · intro hk
        by_contra hkc
        have h1 : mapLookup k o = none := by
          rw [← h k]
          exact (mapLookup_none c).mpr hkc
        exact ((mapLookup_none o).mp h1) hk
    have hperm : (mapKeys c).Perm (mapKeys o) :=
      (List.perm_ext_iff_of_nodup hc ho).mpr hkeys
    have hl : o.length = c.length := by
      have hle := hperm.length_eq
      simp only [mapKeys, List.length_map] at hle
      omega
    refine rcEqual_intro hl ?_
    intro kv hkv
    rw [← h kv.1]
    exact mem_mapLookup c hc (by simpa using hkv)

/-- C8: under the Go map invariant, RulesConfig.Equal decides
extensional equality of the filename-to-content maps, and in
consequence it is reflexive and symmetric. -/
theorem rulesConfig_equal_ext (c o : RulesConfig)
    (hc : mapWF c) (ho : mapWF o) :
    ((RulesConfig.Equal c o = true) ↔
      ∀ k, mapLookup k c = mapLookup k o) ∧
    RulesConfig.Equal c c = true ∧
    RulesConfig.Equal c o = RulesConfig.Equal o c := by
  have hco := rcEqual_iff c o hc ho
  have hoc := rcEqual_iff o c ho hc
  have hiff : RulesConfig.Equal c o = true ↔ RulesConfig.Equal o c = true := by
    rw [hco, hoc]
    exact ⟨fun hx k => (hx k).symm, fun hx k => (hx k).symm⟩
  refine ⟨hco, (rcEqual_iff c c hc hc).mpr (fun k => rfl), ?_⟩
  rcases Bool.eq_false_or_eq_true (RulesConfig.Equal c o) with hb | hb
  · rw [hb, hiff.mp hb]
  · rcases Bool.eq_false_or_eq_true (RulesConfig.Equal o c) with hb2 | hb2
    · have hx := hiff.mpr hb2
      rw [hb] at hx
      exact absurd hx (by simp)
    · rw [hb, hb2]

/-- A two-file rules configuration. -/
def rcA : RulesConfig := [("alerts.yaml", "groups-a"), ("rules.yaml", "groups-b")]

/-- The same pairs as rcA in the other order. -/
def rcB : RulesConfig := [("rules.yaml", "groups-b"), ("alerts.yaml", "groups-a")]

/-- Witness for C8 on two well-formed two-file configurations. -/
theorem rulesConfig_equal_ext_witness :
    mapWF rcA ∧ mapWF rcB ∧
    (((RulesConfig.Equal rcA rcB = true) ↔
        ∀ k, mapLookup k rcA = mapLookup k rcB) ∧
      RulesConfig.Equal rcA rcA = true ∧
      RulesConfig.Equal rcA rcB = RulesConfig.Equal rcB rcA) :=
  ⟨by decide, by decide, rulesConfig_equal_ext rcA rcB (by decide) (by decide)⟩

/-- Embeds time.Time as the instant that IsZero checks against zero. -/
abbrev GoTime := Nat

/-- Embeds time.Time.IsZero: true on the zero time. -/
def GoTime.IsZero (t : GoTime) : Bool := t == 0

/-- Embeds Config: the possibly nil rules-file map (none is the Go
nil map) and the alertmanager configuration. -/
structure Config where
  RulesFiles : Option RulesConfig
  AlertmanagerConfig : String
  deriving DecidableEq

/-- Embeds View: one version of a user's configuration. -/
structure View where
  ID : Int
  Config : Config
  DeletedAt : GoTime
  deriving DecidableEq

/-- Embeds VersionedRulesConfig: a rules configuration together with
its version and deletion time. -/
structure VersionedRulesConfig where
  ID : Int
  Config : RulesConfig
  DeletedAt : GoTime
  deriving DecidableEq

/-- Embeds VersionedRulesConfig.IsDeleted. -/
def VersionedRulesConfig.IsDeleted (vr : VersionedRulesConfig) : Bool :=
  !(GoTime.IsZero vr.DeletedAt)

/-- Embeds View.GetVersionedRulesConfig: nil when the rules-file map
is nil, else the view specialized to its rules. -/
def View.GetVersionedRulesConfig (v : View) : Option VersionedRulesConfig :=
  match v.Config.RulesFiles with
  | none => none
  | some rf => some { ID := v.ID, Config := rf, DeletedAt := v.DeletedAt }

/-- C9: the specialized rules view is nil exactly when the view's
rules-file map is nil; otherwise the identifier, rules map and
deletion time are carried over unchanged, and the result counts as
deleted exactly when that deletion time is non-zero. -/
theorem view_getVersionedRulesConfig (v : View) :
    (View.GetVersionedRulesConfig v = none ↔ v.Config.RulesFiles = none) ∧
    ∀ rf, v.Config.RulesFiles = some rf →
      View.GetVersionedRulesConfig v =
        some { ID := v.ID, Config := rf, DeletedAt := v.DeletedAt } ∧
      (VersionedRulesConfig.IsDeleted
          { ID := v.ID, Config := rf, DeletedAt := v.DeletedAt } = true ↔
        v.DeletedAt ≠ 0) := by
  constructor
  · cases hr : v.Config.RulesFiles <;>
      simp [View.GetVersionedRulesConfig, hr]
  · intro rf hr
    refine ⟨by simp [View.GetVersionedRulesConfig, hr], ?_⟩
    simp [VersionedRulesConfig.IsDeleted, GoTime.IsZero]

/-- A view carrying rules files and a non-zero deletion time. -/
def viewA : View :=
  { ID := 7
    Config := { RulesFiles := some rcA, AlertmanagerConfig := "am" }
    DeletedAt := 5 }

/-- Witness for C9 on a view whose rules files are present. -/
theorem view_getVersionedRulesConfig_witness :
    View.GetVersionedRulesConfig viewA =
      some { ID := viewA.ID, Config := rcA, DeletedAt := viewA.DeletedAt } ∧
    (VersionedRulesConfig.IsDeleted
        { ID := viewA.ID, Config := rcA, DeletedAt := viewA.DeletedAt } = true ↔
      viewA.DeletedAt ≠ 0) :=
  (view_getVersionedRulesConfig viewA).2 rcA rfl

/-- A rule as written in a rule file: its record or alert name, its
expression source, the for duration, labels and annotations. -/
structure RuleNode where
  record : String
  alert : String
  expr : String
  forDur : Nat
  labels : List (String × String)
  annots : List (String × String)
  deriving DecidableEq

/-- One group of a parsed rule file. -/
structure RuleGroup where
  name : String
  rules : List RuleNode
  deriving DecidableEq

/-- The result of rulefmt parsing of one file. -/
structure RuleGroups where
  groups : List RuleGroup
  deriving DecidableEq

/-- A converted rule: alerting when the alert name is non-empty, else
recording; the expression field holds the PromQL parser's result. -/
inductive Rule where
  | alerting (name expr : String) (forDur : Nat)
      (labels annots : List (String × String))
  | recording (name expr : String) (labels : List (String × String))
  deriving DecidableEq

/-- Converts one rule: parse its expression, then build an alerting
rule exactly when the alert field is non-empty. -/
def parseRule (promqlP : String → Except String String) (rl : RuleNode) :
    Except String Rule :=
  match promqlP rl.expr with
  | Except.error e => Except.error e
  | Except.ok expr =>
      if rl.alert ≠ "" then
        Except.ok (Rule.alerting rl.alert expr rl.forDur rl.labels rl.annots)
      else
        Except.ok (Rule.recording rl.record expr rl.labels)

/-- Converts the rules of one group in order, stopping at the first
expression that fails to parse. -/
def parseRuleList (promqlP : String → Except String String) :
    List RuleNode → Except String (List Rule)
  | [] => Except.ok []
  | rl :: rest =>
      match parseRule promqlP rl with
      | Except.error e => Except.error e
      | Except.ok r =>
          match parseRuleList promqlP rest with
          | Except.error e => Except.error e
          | Except.ok rs => Except.ok (r :: rs)

/-- A Go map assignment on the accumulated group map: replace the
stored value when the key is present, else append the pair. -/
def mapSet (m : List (String × List Rule)) (k : String) (v : List Rule) :
    List (String × List Rule) :=
  if (m.map Prod.fst).contains k then
    m.map fun kv => if kv.1 = k then (k, v) else kv
  else m ++ [(k, v)]

/-- Stores the converted rules of each group of one file under the
group name joined to the filename with a semicolon. -/
def parseFileGroups (promqlP : String → Except String String)
    (fn : String) :
    List RuleGroup → List (String × List Rule) →
      Except String (List (String × List Rule))
  | [], acc => Except.ok acc
  | rg :: rest, acc =>
      match parseRuleList promqlP rg.rules with
      | Except.error e => Except.error e
      | Except.ok rls =>
          parseFileGroups promqlP fn rest
            (mapSet acc (rg.name ++ ";" ++ fn) rls)

/-- The outer loop of Parse over the files, accumulating the group
map and stopping at the first failing file. -/
def parseFiles (rulefmtP : String → Except String RuleGroups)
    (promqlP : String → Except String String) :
    List (String × String) → List (String × List Rule) →
      Except String (List (String × List Rule))
  | [], acc => Except.ok acc
  | (fn, content) :: rest, acc =>
      match rulefmtP content with
      | Except.error e =>
          Except.error ("error parsing " ++ fn ++ ": " ++ e)
      | Except.ok rgs =>
          match parseFileGroups promqlP fn rgs.groups acc with
          | Except.error e => Except.error e
          | Except.ok acc1 => parseFiles rulefmtP promqlP rest acc1

/-- Embeds RulesConfig.Parse over the two external parsers (the
rulefmt and PromQL parsers are collaborators outside this
repository): on the first failure only the error is returned (the Go
function returns a nil map beside it), and on success the accumulated
group map. -/
def RulesConfig.Parse (rulefmtP : String → Except String RuleGroups)
    (promqlP : String → Except String String) (c : RulesConfig) :
    Except String (List (String × List Rule)) :=
  parseFiles rulefmtP promqlP c []

/-- True when a result is an error. -/
def exIsErr {α : Type} : Except String α → Bool
  | Except.error _ => true
  | Except.ok _ => false

/-- True when a rule's expression fails the PromQL parser. -/
def ruleFails (promqlP : String → Except String String)
    (rl : RuleNode) : Bool :=
  exIsErr (promqlP rl.expr)

/-- True when a file fails: its content fails rulefmt parsing, or a
rule of one of its groups fails expression parsing. -/
def fileFails (rulefmtP : String → Except String RuleGroups)
    (promqlP : String → Except String String) (content : String) : Bool :=
  match rulefmtP content with
  | Except.error _ => true
  | Except.ok rgs =>
      rgs.groups.any fun rg => rg.rules.any (ruleFails promqlP)

theorem parseRule_isErr (promqlP : String → Except String String)
    (rl : RuleNode) :
    exIsErr (parseRule promqlP rl) = ruleFails promqlP rl := by
  rw [parseRule, ruleFails]
  cases promqlP rl.expr with
  | error e => rfl
  | ok expr =>
      by_cases h : rl.alert ≠ "" <;> simp [h, exIsErr]

theorem parseRuleList_isErr (promqlP : String → Except String String) :
    ∀ rls : List RuleNode,
      exIsErr (parseRuleList promqlP rls) = rls.any (ruleFails promqlP)
  | [] => rfl
  | rl :: rest => by
      rw [parseRuleList, List.any_cons, ← parseRule_isErr promqlP rl,
        ← parseRuleList_isErr promqlP rest]
      cases parseRule promqlP rl with
      | error e => simp [exIsErr]
      | ok r =>
          cases parseRuleList promqlP rest with
          | error e2 => simp [exIsErr]
          | ok rs => simp [exIsErr]

theorem parseFileGroups_isErr (promqlP : String → Except String String)
    (fn : String) : ∀ (rgs : List RuleGroup) (acc : List (String × List Rule)),
    exIsErr (parseFileGroups promqlP fn rgs acc) =
      rgs.any (fun rg => rg.rules.any (ruleFails promqlP))
  | [], acc => rfl
  | rg :: rest, acc => by
      rw [parseFileGroups, List.any_cons, ← parseRuleList_isErr promqlP rg.rules]
      cases parseRuleList promqlP rg.rules with
      | error e => simp [exIsErr]
      | ok rls =>
          show exIsErr (parseFileGroups promqlP fn rest
              (mapSet acc (rg.name ++ ";" ++ fn) rls)) =
            (false || rest.any fun rg => rg.rules.any (ruleFails promqlP))
          rw [parseFileGroups_isErr promqlP fn rest
            (mapSet acc (rg.name ++ ";" ++ fn) rls), Bool.false_or]

theorem parseFiles_cons_err {rulefmtP : String → Except String RuleGroups}
    {promqlP : String → Except String String} {fn content e : String}
    {rest : List (String × String)} {acc : List (String × List Rule)}
    (hr : rulefmtP content = Except.error e) :
    parseFiles rulefmtP promqlP ((fn, content) :: rest) acc =
      Except.error ("error parsing " ++ fn ++ ": " ++ e) := by
  rw [parseFiles, hr]

theorem parseFiles_cons_ok {rulefmtP : String → Except String RuleGroups}
    {promqlP : String → Except String String} {fn content : String}
    {rest : List (String × String)} {acc : List (String × List Rule)}
    {rgs : RuleGroups} (hr : rulefmtP content = Except.ok rgs) :
    parseFiles rulefmtP promqlP ((fn, content) :: rest) acc =
      (match parseFileGroups promqlP fn rgs.groups acc with
       | Except.error e => Except.error e
       | Except.ok acc1 => parseFiles rulefmtP promqlP rest acc1) := by
  rw [parseFiles, hr]

theorem parseFiles_isErr (rulefmtP : String → Except String RuleGroups)
    (promqlP : String → Except String String) :
    ∀ (c : List (String × String)) (acc : List (String × List Rule)),
    exIsErr (parseFiles rulefmtP promqlP c acc) =
      c.any (fun fc => fileFails rulefmtP promqlP fc.2)
  | [], acc => rfl
  | (fn, content) :: rest, acc => by
      have hany : ((fn, content) :: rest).any
          (fun fc => fileFails rulefmtP promqlP fc.2) =
          (fileFails rulefmtP promqlP content ||
            rest.any (fun fc => fileFails rulefmtP promqlP fc.2)) := rfl
      rw [hany]
      cases hr : rulefmtP content with
      | error e =>
          rw [parseFiles_cons_err hr]
          simp [exIsErr, fileFails, hr]
      | ok rgs =>
          rw [parseFiles_cons_ok hr]
          have hff : fileFails rulefmtP promqlP content =
              rgs.groups.any (fun rg => rg.rules.any (ruleFails promqlP)) := by
            simp [fileFails, hr]
          rw [hff, ← parseFileGroups_isErr promqlP fn rgs.groups acc]
          cases parseFileGroups promqlP fn rgs.groups acc with
          | error e => simp [exIsErr]
          | ok acc1 =>
              show exIsErr (parseFiles rulefmtP promqlP rest acc1) =
                (false || rest.any fun fc => fileFails rulefmtP promqlP fc.2)
              rw [parseFiles_isErr rulefmtP promqlP rest acc1, Bool.false_or]

theorem mapSet_key {m : List (String × List Rule)} {k : String}
    {v : List Rule} {kv : String × List Rule} (h : kv ∈ mapSet m k v) :
    kv.1 ∈ m.map Prod.fst ∨ kv.1 = k := by
  rw [mapSet] at h
  by_cases hc : (m.map Prod.fst).contains k
  · rw [if_pos hc] at h
    obtain ⟨kv0, hkv0, heq⟩ := List.mem_map.mp h
    by_cases he : kv0.1 = k
    · right
      rw [← heq, if_pos he]
    · left
      rw [← heq, if_neg he]
      exact List.mem_map.mpr ⟨kv0, hkv0, rfl⟩
  · rw [if_neg hc] at h
    rcases List.mem_append.mp h with hm | hm
    · exact Or.inl (List.mem_map.mpr ⟨kv, hm, rfl⟩)
    · right
      simp at hm
      rw [hm]

theorem mapSet_keys {m : List (String × List Rule)} {k : String}
    {v : List Rule} {k2 : String}
    (h : k2 ∈ (mapSet m k v).map Prod.fst) :
    k2 ∈ m.map Prod.fst ∨ k2 = k := by
  obtain ⟨kv, hkv, hfst⟩ := List.mem_map.mp h
  subst hfst
  exact mapSet_key hkv

theorem parseFileGroups_keys (promqlP : String → Except String String)
    (fn : String) :
    ∀ (rgs : List RuleGroup) (acc m : List (String × List Rule)),
      parseFileGroups promqlP fn rgs acc = Except.ok m →
      ∀ k2 ∈ m.map Prod.fst, k2 ∈ acc.map Prod.fst ∨
        ∃ rg ∈ rgs, k2 = rg.name ++ ";" ++ fn
  | [], acc, m, h, k2, hk2 => by
      rw [parseFileGroups] at h
      injection h with h1
      subst h1
      exact Or.inl hk2
  | rg :: rest, acc, m, h, k2, hk2 => by
      rw [parseFileGroups] at h
      cases hp : parseRuleList promqlP rg.rules with
      | error e =>
          rw [hp] at h
          exact absurd h (by simp)
      | ok rls =>
          rw [hp] at h
          have hrec := parseFileGroups_keys promqlP fn rest
            (mapSet acc (rg.name ++ ";" ++ fn) rls) m h k2 hk2
          rcases hrec with hin | ⟨rg2, hrg2, hkey⟩
          · rcases mapSet_keys hin with h1 | h1
            · exact Or.inl h1
            · exact Or.inr ⟨rg, List.mem_cons_self rg rest, h1⟩
          · exact Or.inr ⟨rg2, List.mem_cons_of_mem rg hrg2, hkey⟩

theorem parseFiles_keys (rulefmtP : String → Except String RuleGroups)
    (promqlP : String → Except String String) :
    ∀ (c : List (String × String)) (acc m : List (String × List Rule)),
      parseFiles rulefmtP promqlP c acc = Except.ok m →
      ∀ k2 ∈ m.map Prod.fst, k2 ∈ acc.map Prod.fst ∨
        ∃ fn content rgs rg, (fn, content) ∈ c ∧
          rulefmtP content = Except.ok rgs ∧ rg ∈ rgs.groups ∧
          k2 = rg.name ++ ";" ++ fn
  | [], acc, m, h, k2, hk2 => by
      rw [parseFiles] at h
      injection h with h1
      subst h1
      exact Or.inl hk2
  | (fn, content) :: rest, acc, m, h, k2, hk2 => by
      cases hr : rulefmtP content with
      | error e =>
          rw [parseFiles_cons_err hr] at h
          exact absurd h (by simp)
      | ok rgs =>
          rw [parseFiles_cons_ok hr] at h
          revert h
          cases hg : parseFileGroups promqlP fn rgs.groups acc with
          | error e =>
              intro h
              simp at h
          | ok acc1 =>
              intro h2
              have h : parseFiles rulefmtP promqlP rest acc1 = Except.ok m := h2
              have hrec := parseFiles_keys rulefmtP promqlP rest acc1 m h k2 hk2
              rcases hrec with hin | ⟨fn2, content2, rgs2, rg2, hmem, hok, hin2, hkey⟩
              · rcases parseFileGroups_keys promqlP fn rgs.groups acc acc1 hg k2 hin
                  with h1 | ⟨rg2, hrg2, hkey⟩
                · exact Or.inl h1
                · exact Or.inr ⟨fn, content, rgs, rg2,
                    List.mem_cons_self _ rest, hr, hrg2, hkey⟩
              · exact Or.inr ⟨fn2, content2, rgs2, rg2,
                  List.mem_cons_of_mem _ hmem, hok, hin2, hkey⟩

/-- C10: Parse fails exactly when some rule file fails rule-format
parsing or holds a rule whose expression fails PromQL parsing (in the
embedding the error value carries no map, matching the nil map the Go
function returns beside an error), and on success every key of the
group map is a group name joined to its filename with a semicolon. -/
theorem rulesConfig_parse_spec (rulefmtP : String → Except String RuleGroups)
    (promqlP : String → Except String String) (c : RulesConfig) :
    exIsErr (RulesConfig.Parse rulefmtP promqlP c) =
      c.any (fun fc => fileFails rulefmtP promqlP fc.2) ∧
    ∀ m, RulesConfig.Parse rulefmtP promqlP c = Except.ok m →
      ∀ k2 ∈ m.map Prod.fst, ∃ fn content rgs rg,
        (fn, content) ∈ c ∧ rulefmtP content = Except.ok rgs ∧
        rg ∈ rgs.groups ∧ k2 = rg.name ++ ";" ++ fn := by
  refine ⟨parseFiles_isErr rulefmtP promqlP c [], ?_⟩
  intro m h k2 hk2
  rcases parseFiles_keys rulefmtP promqlP c [] m h k2 hk2 with hin | hrest
  · simp at hin
  · exact hrest

/-- A one-rule recording group as the rulefmt parser would return it. -/
def ruleNode1 : RuleNode :=
  { record := "job:up:sum", alert := "", expr := "sum(up)",
    forDur := 0, labels := [], annots := [] }

/-- The parsed groups of the well-formed file. -/
def ruleGroups1 : RuleGroups :=
  { groups := [{ name := "g1", rules := [ruleNode1] }] }

/-- A rulefmt parser accepting exactly the content good. -/
def rulefmtOk : String → Except String RuleGroups :=
  fun s => if s = "good" then Except.ok ruleGroups1 else Except.error ("bad yaml")

/-- A PromQL parser accepting every expression. -/
def promqlOk : String → Except String String :=
  fun s => Except.ok s

/-- A single-file configuration whose content parses. -/
def rcFiles : RulesConfig := [("rules.yaml", "good")]

/-- Witness for C10: the one-file configuration parses into one group
keyed by the group name, a semicolon and the filename. -/
theorem rulesConfig_parse_spec_witness :
    RulesConfig.Parse rulefmtOk promqlOk rcFiles =
      Except.ok [("g1;rules.yaml", [Rule.recording "job:up:sum" "sum(up)" []])] ∧
    ∃ fn content rgs rg,
      (fn, content) ∈ rcFiles ∧ rulefmtOk content = Except.ok rgs ∧
      rg ∈ rgs.groups ∧ ("g1;rules.yaml" : String) = rg.name ++ ";" ++ fn :=
  ⟨rfl,
   (rulesConfig_parse_spec rulefmtOk promqlOk rcFiles).2
     ([("g1;rules.yaml", [Rule.recording "job:up:sum" "sum(up)" []])]) rfl
     ("g1;rules.yaml") (by simp)⟩
